import Mathlib

/-!
Verification of the MinecraftModel voxel-to-schematic pipeline.

The Python sources are shallowly embedded:
* block identifiers are `List Char` (the data of Python strings), and
  `pyReplace` mirrors Python's `str.replace` (all occurrences, left to right);
* `colour_mapper.py`'s `BlockPalette` is a structure over exact rationals,
  with the `rgb2lab` colour conversion taken as a parameter (the conversion
  itself is floating point in the source, but every property proved here is
  independent of the concrete conversion function);
* `scan2schem.py`'s flood-fill pruning is embedded over `Finset (ℤ × ℤ × ℤ)`,
  the breadth-first queue replaced by saturation of a step operator;
* the exporters' numpy array writes are embedded as folds of pointwise
  function updates over the coordinate enumeration order of the source loops.
-/

namespace MinecraftModel

/-! ## Python string primitives -/

/-- Block identifiers, as the char data of Python strings. -/
abbrev Name := List Char

/-- Python `s.replace(old, new)`, fuelled for structural recursion: replace
all non-overlapping occurrences, scanning left to right.  The fuel only has
to dominate the length of `s`. -/
def pyReplaceAux : ℕ → Name → Name → Name → Name
  | 0, s, _, _ => s
  | _ + 1, [], _, _ => []
  | fuel + 1, c :: rest, old, new =>
    if old ≠ [] ∧ old.isPrefixOf (c :: rest) then
      new ++ pyReplaceAux fuel ((c :: rest).drop old.length) old new
    else
      c :: pyReplaceAux fuel rest old new

/-- Python `s.replace(old, new)`: replace all non-overlapping occurrences,
scanning left to right.  (The Python corner case of an empty `old`, which
inserts `new` at every position, is never exercised by this code base; here
an empty `old` leaves the string unchanged.) -/
def pyReplace (s old new : Name) : Name :=
  pyReplaceAux s.length s old new

/-- Python `s.endswith(suffix)`. -/
def pyEndsWith (s suffix : Name) : Bool :=
  suffix.isSuffixOf s

/-! ## colour_mapper.py -/

/-- An RGB triple (exact rationals in the embedding). -/
abbrev Rgb := ℚ × ℚ × ℚ

/-- A perceptual (LAB) colour triple. -/
abbrev Lab := ℚ × ℚ × ℚ

/-- `BlockPalette.__init__` stores the palette names and the converted
palette colours. -/
structure BlockPalette where
  names : List Name
  lab : List Lab

/-- Componentwise division by 255, as in `__init__`'s normalisation. -/
def div255 (c : Rgb) : Rgb :=
  (c.1 / 255, c.2.1 / 255, c.2.2 / 255)

/-- `np.clip(x, 0, 1)` on one channel. -/
def clip01 (q : ℚ) : ℚ :=
  max 0 (min q 1)

/-- `np.clip(rgb/255.0, 0, 1)` as done in `nearest`. -/
def clipRgb (c : Rgb) : Rgb :=
  (clip01 (c.1 / 255), clip01 (c.2.1 / 255), clip01 (c.2.2 / 255))

/-- Squared Euclidean distance between two LAB triples. -/
def sqDist (a b : Lab) : ℚ :=
  (a.1 - b.1) ^ 2 + (a.2.1 - b.2.1) ^ 2 + (a.2.2 - b.2.2) ^ 2

/-- `BlockPalette.__init__`: extract the names, normalise the RGB values and
convert them with `rgb2lab`.  No validation of any kind is performed: channel
values outside `[0, 255]` and duplicated names are accepted as they stand. -/
def loadPalette (rgb2lab : Rgb → Lab) (items : List (Name × Rgb)) : BlockPalette :=
  { names := items.map Prod.fst
    lab := items.map fun it => rgb2lab (div255 it.2) }

/-- The running state of `np.argmin`: position `i` of the next element,
current best index `best` with value `bestd`; the best index is replaced only
on a strict improvement, so the first occurrence of the minimum wins. -/
def argminAux : List ℚ → ℕ → ℕ → ℚ → ℕ
  | [], _, best, _ => best
  | d :: rest, i, best, bestd =>
    if d < bestd then argminAux rest (i + 1) i d
    else argminAux rest (i + 1) best bestd

/-- `np.argmin`: index of the first occurrence of the minimum (0 on `[]`). -/
def argmin : List ℚ → ℕ
  | [] => 0
  | d :: rest => argminAux rest 1 0 d

/-- The list of squared LAB distances from the query colour to each palette
entry, in palette order (the array `d` in `nearest`). -/
def dists (rgb2lab : Rgb → Lab) (pal : BlockPalette) (c : Rgb) : List ℚ :=
  pal.lab.map fun l => sqDist l (rgb2lab (clipRgb c))

/-- `BlockPalette.nearest`: clip, convert, take the palette name at the
argmin of the squared distances. -/
def nearest (rgb2lab : Rgb → Lab) (pal : BlockPalette) (c : Rgb) : Name :=
  pal.names.getD (argmin (dists rgb2lab pal c)) []

/-! ## scan2schem.py: component pruning (`voxelize_mesh`, lines 113-151) -/

/-- An integer voxel coordinate. -/
abbrev Coord := ℤ × ℤ × ℤ

/-- The six face directions of `voxelize_mesh`'s `dirs`. -/
def dirs : List Coord :=
  [(1, 0, 0), (-1, 0, 0), (0, 1, 0), (0, -1, 0), (0, 0, 1), (0, 0, -1)]

/-- Componentwise coordinate addition (`a + dx`, `b + dy`, `c + dz`). -/
def addC (p q : Coord) : Coord :=
  (p.1 + q.1, p.2.1 + q.2.1, p.2.2 + q.2.2)

/-- Six-face adjacency: `q` is reached from `p` by one entry of `dirs`. -/
def adjacent (p q : Coord) : Prop :=
  q ∈ dirs.map (addC p)

instance (p q : Coord) : Decidable (adjacent p q) := by
  unfold adjacent; infer_instance

/-- One saturation round of the flood fill: everything already reached stays,
and every occupied voxel adjacent to a reached one is added.  This replaces
the source's breadth-first queue by a fair layer-at-a-time expansion. -/
def step (V S : Finset Coord) : Finset Coord :=
  S ∪ V.filter fun v => ∃ s ∈ S, adjacent s v

/-- The flood fill of `voxelize_mesh` from seed `a`: saturate `step` —
`V.card` rounds always suffice to reach the fixed point. -/
def floodFill (V : Finset Coord) (a : Coord) : Finset Coord :=
  (step V)^[V.card] {a}

/-- The component-pruning loop of `voxelize_mesh`: walk the voxels in order;
for each still-unlabelled voxel flood-fill its component, then keep the
members exactly when the component has at least `t` members. -/
def pruneList (V : Finset Coord) (t : ℕ) : List Coord → Finset Coord → Finset Coord
  | [], _ => ∅
  | v :: rest, visited =>
    if v ∈ visited then pruneList V t rest visited
    else if t ≤ (floodFill V v).card then
      floodFill V v ∪ pruneList V t rest (visited ∪ floodFill V v)
    else
      pruneList V t rest (visited ∪ floodFill V v)

/-- The pruning stage of `voxelize_mesh`: the voxels arrive as the array
`ci`, which both populates the occupancy lattice (here `l.toFinset`) and
drives the seed iteration order. -/
def prune (l : List Coord) (t : ℕ) : Finset Coord :=
  pruneList l.toFinset t l ∅

/-- The pruning stage together with its emptiness check
(`if not np.any(keep): raise SystemExit(...)`). -/
def pruneChecked (l : List Coord) (t : ℕ) : Except String (Finset Coord) :=
  if prune l t = ∅ then
    .error "Nothing left after pruning; try lowering --min_component."
  else
    .ok (prune l t)

/-- The specification-side reachability: `b` is connected to `a` through a
chain of occupied voxels linked by 6-face adjacency. -/
def reaches (V : Finset Coord) (a b : Coord) : Prop :=
  Relation.ReflTransGen (fun x y => x ∈ V ∧ y ∈ V ∧ adjacent x y) a b

/-! ## Array-write loops

The numpy arrays written by the exporters are embedded as functions from
indices to values; a loop of array stores becomes a fold of pointwise
function updates over the loop's iteration order. -/

/-- A loop that stores `val p` at position `key p` of a mutable array,
for each `p` of `l` in order, starting from array contents `f`. -/
def writeFold {α β γ : Type} [DecidableEq β]
    (l : List α) (key : α → β) (val : α → γ) (f : β → γ) : β → γ :=
  l.foldl (fun g p => Function.update g (key p) (val p)) f

/-! ## scan2schem.py: `build_block_grid` (lines 154-168) -/

/-- A non-negative grid coordinate, as used to index the block grid. -/
abbrev GCoord := ℕ × ℕ × ℕ

/-- `build_block_grid`: `zip` the coordinates with the colours (silently
truncating to the shorter list, as Python's `zip` does) and store
`pal.nearest(col)` at each coordinate; every other cell stays `none`. -/
def buildBlockGrid (rgb2lab : Rgb → Lab) (pal : BlockPalette)
    (coords : List GCoord) (colors : List Rgb) : GCoord → Option Name :=
  writeFold (coords.zip colors) Prod.fst
    (fun q => some (nearest rgb2lab pal q.2)) (fun _ => none)

/-! ## exporter_schematic.py -/

/-- The 16-entry colour table `COLOR_INDEX`. -/
def COLOR_INDEX : List (Name × ℕ) :=
  [("white".data, 0), ("orange".data, 1), ("magenta".data, 2),
   ("light_blue".data, 3), ("yellow".data, 4), ("lime".data, 5),
   ("pink".data, 6), ("gray".data, 7), ("light_gray".data, 8),
   ("cyan".data, 9), ("purple".data, 10), ("blue".data, 11),
   ("brown".data, 12), ("green".data, 13), ("red".data, 14),
   ("black".data, 15)]

/-- The 6-entry plank species table of `_name_to_legacy`. -/
def SPECIES : List (Name × ℕ) :=
  [("oak".data, 0), ("spruce".data, 1), ("birch".data, 2),
   ("jungle".data, 3), ("acacia".data, 4), ("dark_oak".data, 5)]

/-- `block_name.replace("minecraft:", "")`. -/
def stripMc (s : Name) : Name :=
  pyReplace s ("minecraft:".data) []

/-- `_name_to_legacy`: translate a block-grid cell (`none` = unset) to a
legacy (numeric id, metadata) pair. -/
def nameToLegacy : Option Name → ℕ × ℕ
  | none => (0, 0)
  | some name =>
    if stripMc name = "air".data then (0, 0)
    else if pyEndsWith (stripMc name) ("_wool".data) then
      (35, ((COLOR_INDEX.lookup (pyReplace (stripMc name) ("_wool".data) [])).getD 0))
    else if pyEndsWith (stripMc name) ("_concrete".data) then
      (251, ((COLOR_INDEX.lookup (pyReplace (stripMc name) ("_concrete".data) [])).getD 0))
    else if stripMc name = "stone".data then (1, 0)
    else if pyEndsWith (stripMc name) ("_planks".data) then
      (5, ((SPECIES.lookup (pyReplace (stripMc name) ("_planks".data) [])).getD 0))
    else (1, 0)

/-- `write_schematic`'s linear index `idx(x, y, z) = y*(W*D) + z*W + x`. -/
def idx (W D x y z : ℕ) : ℕ :=
  y * (W * D) + z * W + x

/-- The iteration order of `write_schematic`'s triple loop:
`for x in range(W): for y in range(H): for z in range(D)`. -/
def coordList (W H D : ℕ) : List GCoord :=
  (List.range W).flatMap fun x =>
    (List.range H).flatMap fun y =>
      (List.range D).map fun z => (x, y, z)

/-- The `Blocks` array of `write_schematic` after the write loop, as a
function from linear index to byte (`blocks[i] = bid & 0xFF`, with arrays
initialised to zero). -/
def legacyBlocks (G : GCoord → Option Name) (W H D : ℕ) : ℕ → ℕ :=
  writeFold (coordList W H D) (fun p => idx W D p.1 p.2.1 p.2.2)
    (fun p => (nameToLegacy (G p)).1 % 256) (fun _ => 0)

/-- The `Data` array of `write_schematic` after the write loop
(`data[i] = meta & 0x0F`). -/
def legacyData (G : GCoord → Option Name) (W H D : ℕ) : ℕ → ℕ :=
  writeFold (coordList W H D) (fun p => idx W D p.1 p.2.1 p.2.2)
    (fun p => (nameToLegacy (G p)).2 % 16) (fun _ => 0)

/-- The `Blocks` byte array as the list handed to `ByteArray(...)`. -/
def legacyBlocksList (G : GCoord → Option Name) (W H D : ℕ) : List ℕ :=
  (List.range (W * H * D)).map (legacyBlocks G W H D)

/-- The `Data` byte array as the list handed to `ByteArray(...)`. -/
def legacyDataList (G : GCoord → Option Name) (W H D : ℕ) : List ℕ :=
  (List.range (W * H * D)).map (legacyData G W H D)

/-! ## The Sponge v2 serializer and verify_schem.py

The repository ships only the verification side of the Sponge v2 format
(`verify_schem.py`); the writer it checks is not under `src/`.  The writer is
therefore modelled from the spec, with the fixed element width 2 that
`verify_schem.py` assumes (`expected_bytes = 2 * W * H * L`,
`np.frombuffer(blockdata, dtype=np.int16)`). -/

/-- A block-grid cell as a palette key: unset cells read as air. -/
def cellName (c : Option Name) : Name :=
  c.getD ("minecraft:air".data)

/-- Modelled from the spec: the Sponge v2 voxel enumeration, one palette
index per voxel in the fixed coordinate order `y`, then `z`, then `x`. -/
def spongeOrder (W H D : ℕ) : List GCoord :=
  (List.range H).flatMap fun y =>
    (List.range D).flatMap fun z =>
      (List.range W).map fun x => (x, y, z)

/-- Modelled from the spec: build the Sponge palette by first-occurrence
order over the block grid, air always included (first). -/
def spongePalette (G : GCoord → Option Name) (W H D : ℕ) : List Name :=
  (spongeOrder W H D).foldl
    (fun pal p => if cellName (G p) ∈ pal then pal else pal ++ [cellName (G p)])
    [("minecraft:air".data)]

/-- Modelled from the spec: the `BlockData` byte sequence — for each voxel in
order, the palette index of its cell encoded as a fixed-width two-byte
little-endian integer (the width `verify_schem.py` expects). -/
def spongeBlockData (G : GCoord → Option Name) (W H D : ℕ) : List ℕ :=
  (spongeOrder W H D).flatMap fun p =>
    [(spongePalette G W H D).indexOf (cellName (G p)) % 256,
     ((spongePalette G W H D).indexOf (cellName (G p)) / 256) % 256]

/-- `verify_schem.py`'s expected byte length: `expected_bytes = 2 * W * H * L`. -/
def expectedBytes (W H L : ℕ) : ℕ :=
  2 * (W * H * L)

/-- `verify_schem.py`'s decoding `np.frombuffer(blockdata, dtype=np.int16)`:
consecutive byte pairs as little-endian signed 16-bit integers. -/
def decodeInt16s : List ℕ → List ℤ
  | b0 :: b1 :: rest =>
    (if (b0 % 256) + 256 * (b1 % 256) < 32768 then
      (((b0 % 256) + 256 * (b1 % 256) : ℕ) : ℤ)
    else
      (((b0 % 256) + 256 * (b1 % 256) : ℕ) : ℤ) - 65536) :: decodeInt16s rest
  | _ => []

/-! ## Lemmas about array-write loops -/

theorem writeFold_apply_of_ne {α β γ : Type} [DecidableEq β]
    (l : List α) (key : α → β) (val : α → γ) (i : β) :
    ∀ f : β → γ, (∀ p ∈ l, key p ≠ i) → writeFold l key val f i = f i := by
  induction l with
  | nil => intro f _; rfl
  | cons a tl ih =>
    intro f h
    have ha : key a ≠ i := h a (List.mem_cons_self a tl)
    have hstep : writeFold (a :: tl) key val f
        = writeFold tl key val (Function.update f (key a) (val a)) := rfl
    rw [hstep, ih (Function.update f (key a) (val a)) fun p hp => h p (List.mem_cons_of_mem a hp)]
    exact Function.update_noteq (fun hi => ha hi.symm) _ f

theorem writeFold_apply_eq {α β γ : Type} [DecidableEq β]
    (l : List α) (key : α → β) (val : α → γ) (i : β) (v : γ) :
    ∀ f : β → γ, (∀ p ∈ l, key p ≠ i ∨ val p = v) → (∃ p ∈ l, key p = i) →
      writeFold l key val f i = v := by
  induction l with
  | nil => intro f _ hex; simp at hex
  | cons a tl ih =>
    intro f hall hex
    have hstep : writeFold (a :: tl) key val f
        = writeFold tl key val (Function.update f (key a) (val a)) := rfl
    by_cases htl : ∃ p ∈ tl, key p = i
    · exact hstep ▸ ih _ (fun p hp => hall p (List.mem_cons_of_mem a hp)) htl
    · obtain ⟨p, hp, hkey⟩ := hex
      have hpa : p = a := by
        rcases List.mem_cons.mp hp with h | h
        · exact h
        · exact absurd ⟨p, h, hkey⟩ htl
      subst hpa
      have hv : val p = v := by
        rcases hall p (List.mem_cons_self p tl) with h | h
        · exact absurd hkey h
        · exact h
      rw [hstep, writeFold_apply_of_ne tl key val i _ fun q hq hqk => htl ⟨q, hq, hqk⟩]
      rw [← hkey, Function.update_same, hv]

/-! ## The legacy .schematic writer (claims C2, C3, C10) -/

theorem mem_coordList {W H D : ℕ} {p : GCoord} :
    p ∈ coordList W H D ↔ p.1 < W ∧ p.2.1 < H ∧ p.2.2 < D := by
  obtain ⟨x, y, z⟩ := p
  simp only [coordList, List.mem_flatMap, List.mem_map, List.mem_range]
  constructor
  · rintro ⟨a, ha, b, hb, c, hc, hEq⟩
    obtain ⟨rfl, rfl, rfl⟩ := Prod.mk.injEq .. ▸ hEq
    simp_all [Prod.ext_iff]
  · rintro ⟨h1, h2, h3⟩
    exact ⟨x, h1, y, h2, z, h3, rfl⟩

theorem add_mul_cancel_of_lt {W x1 x2 k1 k2 : ℕ} (hx1 : x1 < W) (hx2 : x2 < W)
    (h : x1 + W * k1 = x2 + W * k2) : x1 = x2 ∧ k1 = k2 := by
  have hm1 : (x1 + W * k1) % W = x1 := by
    rw [Nat.add_mul_mod_self_left, Nat.mod_eq_of_lt hx1]
  have hm2 : (x2 + W * k2) % W = x2 := by
    rw [Nat.add_mul_mod_self_left, Nat.mod_eq_of_lt hx2]
  have hx : x1 = x2 := by rw [← hm1, ← hm2, h]
  refine ⟨hx, ?_⟩
  have hW : 0 < W := Nat.lt_of_le_of_lt (Nat.zero_le x1) hx1
  have hk : W * k1 = W * k2 := by omega
  exact Nat.eq_of_mul_eq_mul_left hW hk

theorem idx_eq_base (W D x y z : ℕ) : idx W D x y z = x + W * (z + D * y) := by
  unfold idx; ring

theorem idx_inj {W D : ℕ} {x1 y1 z1 x2 y2 z2 : ℕ}
    (hx1 : x1 < W) (hz1 : z1 < D) (hx2 : x2 < W) (hz2 : z2 < D)
    (h : idx W D x1 y1 z1 = idx W D x2 y2 z2) :
    x1 = x2 ∧ y1 = y2 ∧ z1 = z2 := by
  rw [idx_eq_base, idx_eq_base] at h
  obtain ⟨hx, hk⟩ := add_mul_cancel_of_lt hx1 hx2 h
  obtain ⟨hz, hy⟩ := add_mul_cancel_of_lt hz1 hz2 hk
  exact ⟨hx, hy, hz⟩

theorem lookup_getD_lt (l : List (Name × ℕ)) (c : Name) (d : ℕ)
    (hbound : ∀ p ∈ l, p.2 < 16) (hd : d < 16) : ((l.lookup c).getD d) < 16 := by
  induction l with
  | nil => simpa [List.lookup] using hd
  | cons a tl ih =>
    obtain ⟨k, v⟩ := a
    by_cases hc : c = k
    · subst hc
      simpa [List.lookup] using hbound (c, v) (List.mem_cons_self _ _)
    · have hne : (c == k) = false := beq_false_of_ne hc
      simp only [List.lookup, hne]
      exact ih fun p hp => hbound p (List.mem_cons_of_mem _ hp)

theorem nameToLegacy_lt (c : Option Name) :
    (nameToLegacy c).1 < 256 ∧ (nameToLegacy c).2 < 16 := by
  cases c with
  | none => exact ⟨by decide, by decide⟩
  | some s =>
    simp only [nameToLegacy]
    split_ifs <;>
      refine ⟨by norm_num, ?_⟩ <;>
      first
        | exact lookup_getD_lt _ _ _ (by decide) (by norm_num)
        | norm_num

/-- C2: for every block grid of shape (W, H, D) and every in-bounds
coordinate (x, y, z), the Blocks and Data arrays written by the legacy
.schematic writer hold, at the linear index `y*(W*D) + z*W + x`, exactly the
(id, metadata) pair given by the fixed legacy lookup table at that cell; so
re-parsing the arrays with that index reproduces exactly the pairs derivable
from the grid. -/
theorem legacy_schematic_roundtrip (G : GCoord → Option Name) (W H D x y z : ℕ)
    (hx : x < W) (hy : y < H) (hz : z < D) :
    (legacyBlocks G W H D (idx W D x y z), legacyData G W H D (idx W D x y z)) =
      nameToLegacy (G (x, y, z)) := by
  have hmem : (x, y, z) ∈ coordList W H D := mem_coordList.mpr ⟨hx, hy, hz⟩
  have hall : ∀ pick : GCoord → ℕ, ∀ p ∈ coordList W H D,
      idx W D p.1 p.2.1 p.2.2 ≠ idx W D x y z ∨ pick p = pick (x, y, z) := by
    intro pick p hp
    by_cases hk : idx W D p.1 p.2.1 p.2.2 = idx W D x y z
    · right
      obtain ⟨h1, h2, h3⟩ := mem_coordList.mp hp
      obtain ⟨e1, e2, e3⟩ := idx_inj h1 h3 hx hz hk
      obtain ⟨a, b, c⟩ := p
      simp_all
    · exact Or.inl hk
  have hB : legacyBlocks G W H D (idx W D x y z) = (nameToLegacy (G (x, y, z))).1 % 256 :=
    writeFold_apply_eq _ _ _ _ _ _
      (hall fun p => (nameToLegacy (G p)).1 % 256) ⟨(x, y, z), hmem, rfl⟩
  have hD : legacyData G W H D (idx W D x y z) = (nameToLegacy (G (x, y, z))).2 % 16 :=
    writeFold_apply_eq _ _ _ _ _ _
      (hall fun p => (nameToLegacy (G p)).2 % 16) ⟨(x, y, z), hmem, rfl⟩
  obtain ⟨hlt1, hlt2⟩ := nameToLegacy_lt (G (x, y, z))
  rw [hB, hD, Nat.mod_eq_of_lt hlt1, Nat.mod_eq_of_lt hlt2]

/-- Helper for C3/C10: a name with a recognised suffix is not a name the
earlier equality branches accept. -/
theorem ne_of_suffix_long {b pat lit : Name} (h : pyEndsWith b pat = true)
    (hlen : lit.length < pat.length) : b ≠ lit := by
  intro heq
  have hsuf : pat <:+ b := List.isSuffixOf_iff_suffix.mp h
  have h5 := hsuf.length_le
  rw [heq] at h5
  omega

/-- Helper for C10: a name ending in `_concrete` does not end in `_wool`,
so `_name_to_legacy`'s wool branch is not taken. -/
theorem not_wool_of_concrete {b : Name}
    (h : pyEndsWith b ("_concrete".data) = true) :
    pyEndsWith b ("_wool".data) = false := by
  cases hwb : pyEndsWith b ("_wool".data) with
  | false => rfl
  | true =>
    have hw : ("_wool".data) <:+ b := List.isSuffixOf_iff_suffix.mp hwb
    have hc : ("_concrete".data) <:+ b := List.isSuffixOf_iff_suffix.mp h
    rcases List.suffix_or_suffix_of_suffix hw hc with hor | hor
    · exact absurd hor (by decide)
    · exact absurd hor (by decide)

/-- Witness for C2: the 1×1×1 grid holding `minecraft:red_wool` reads back
as the pair (35, 14) at linear index 0. -/
theorem legacy_schematic_roundtrip_witness :
    (legacyBlocks (fun p => if p = (0, 0, 0) then some ("minecraft:red_wool".data) else none) 1 1 1 (idx 1 1 0 0 0),
     legacyData (fun p => if p = (0, 0, 0) then some ("minecraft:red_wool".data) else none) 1 1 1 (idx 1 1 0 0 0)) =
      (35, 14) :=
  (legacy_schematic_roundtrip
    (fun p => if p = (0, 0, 0) then some ("minecraft:red_wool".data) else none)
    1 1 1 0 0 0 (by decide) (by decide) (by decide)).trans (by decide)

/-- C3: the legacy translation maps air (and an unset cell) to (0,0);
recognised `*_wool` and `*_concrete` colours to (35, colourIndex) and
(251, colourIndex); `stone` to (1,0); recognised `*_planks` species to
(5, speciesIndex); and any identifier matching none of those branches to
(1,0).  In particular a 1×1×1 grid holding `minecraft:red_wool` exports
with Blocks=[35] and Data=[14]. -/
theorem nameToLegacy_table :
    nameToLegacy none = (0, 0) ∧
    nameToLegacy (some ("minecraft:air".data)) = (0, 0) ∧
    (∀ p ∈ COLOR_INDEX,
      nameToLegacy (some ("minecraft:".data ++ p.1 ++ "_wool".data)) = (35, p.2)) ∧
    (∀ p ∈ COLOR_INDEX,
      nameToLegacy (some ("minecraft:".data ++ p.1 ++ "_concrete".data)) = (251, p.2)) ∧
    nameToLegacy (some ("minecraft:stone".data)) = (1, 0) ∧
    (∀ p ∈ SPECIES,
      nameToLegacy (some ("minecraft:".data ++ p.1 ++ "_planks".data)) = (5, p.2)) ∧
    (∀ s : Name, stripMc s ≠ "air".data →
      pyEndsWith (stripMc s) ("_wool".data) = false →
      pyEndsWith (stripMc s) ("_concrete".data) = false →
      stripMc s ≠ "stone".data →
      pyEndsWith (stripMc s) ("_planks".data) = false →
      nameToLegacy (some s) = (1, 0)) ∧
    legacyBlocksList (fun p => if p = (0, 0, 0) then some ("minecraft:red_wool".data) else none) 1 1 1 = [35] ∧
    legacyDataList (fun p => if p = (0, 0, 0) then some ("minecraft:red_wool".data) else none) 1 1 1 = [14] := by
  refine ⟨by decide, by decide, by decide, by decide, by decide, by decide, ?_, by decide, by decide⟩
  intro s h1 h2 h3 h4 h5
  simp [nameToLegacy, h1, h2, h3, h4, h5]

/-- Witness for C3: the recognised-colour clause at `red` and the fallback
clause at `minecraft:diamond_block`. -/
theorem nameToLegacy_table_witness :
    nameToLegacy (some ("minecraft:".data ++ "red".data ++ "_wool".data)) = (35, 14) ∧
    nameToLegacy (some ("minecraft:diamond_block".data)) = (1, 0) :=
  ⟨nameToLegacy_table.2.2.1 ("red".data, 14) (by decide),
   nameToLegacy_table.2.2.2.2.2.2.1 ("minecraft:diamond_block".data)
     (by decide) (by decide) (by decide) (by decide) (by decide)⟩

/-- C10: an identifier ending in `_wool` (respectively `_concrete`) whose
colour part is not a recognised colour name keeps the wool (concrete) base
id with metadata 0 — (35, 0) (respectively (251, 0)) — instead of falling
back to stone. -/
theorem wool_concrete_unknown_color :
    (∀ s : Name, pyEndsWith (stripMc s) ("_wool".data) = true →
      COLOR_INDEX.lookup (pyReplace (stripMc s) ("_wool".data) []) = none →
      nameToLegacy (some s) = (35, 0)) ∧
    (∀ s : Name, pyEndsWith (stripMc s) ("_concrete".data) = true →
      COLOR_INDEX.lookup (pyReplace (stripMc s) ("_concrete".data) []) = none →
      nameToLegacy (some s) = (251, 0)) := by
  constructor
  · intro s hw hl
    have hair : stripMc s ≠ "air".data := ne_of_suffix_long hw (by decide)
    simp [nameToLegacy, hair, hw, hl]
  · intro s hc hl
    have hair : stripMc s ≠ "air".data := ne_of_suffix_long hc (by decide)
    have hw : pyEndsWith (stripMc s) ("_wool".data) = false := not_wool_of_concrete hc
    simp [nameToLegacy, hair, hw, hc, hl]

/-- Witness for C10: `minecraft:blurple_wool` and `minecraft:blurple_concrete`
keep their base ids with white metadata. -/
theorem wool_concrete_unknown_color_witness :
    nameToLegacy (some ("minecraft:blurple_wool".data)) = (35, 0) ∧
    nameToLegacy (some ("minecraft:blurple_concrete".data)) = (251, 0) :=
  ⟨wool_concrete_unknown_color.1 ("minecraft:blurple_wool".data) (by decide) (by decide),
   wool_concrete_unknown_color.2 ("minecraft:blurple_concrete".data) (by decide) (by decide)⟩

/-! ## The colour matcher (claims C4, C6) -/

theorem argminAux_spec (l : List ℚ) : ∀ (i best : ℕ) (bestd : ℚ),
    (argminAux l i best bestd = best ∧ ∀ d ∈ l, bestd ≤ d) ∨
    (∃ k < l.length, argminAux l i best bestd = i + k ∧
      l.getD k 0 < bestd ∧ (∀ d ∈ l, l.getD k 0 ≤ d) ∧
      (∀ j < k, l.getD k 0 < l.getD j 0)) := by
  induction l with
  | nil => intro i best bestd; exact Or.inl ⟨rfl, by simp⟩
  | cons d rest ih =>
    intro i best bestd
    by_cases hlt : d < bestd
    · have hrec : argminAux (d :: rest) i best bestd = argminAux rest (i + 1) i d := by
        simp [argminAux, hlt]
      rcases ih (i + 1) i d with ⟨hr, hall⟩ | ⟨k, hk, hr, hlt2, hall, hfirst⟩
      · refine Or.inr ⟨0, by simp, ?_, ?_, ?_, ?_⟩
        · rw [hrec, hr]; omega
        · simpa using hlt
        · intro e he
          rcases List.mem_cons.mp he with rfl | he
          · simp
          · simpa using hall e he
        · intro j hj; omega
      · refine Or.inr ⟨k + 1, by simpa using Nat.succ_lt_succ hk, ?_, ?_, ?_, ?_⟩
        · rw [hrec, hr]; omega
        · simpa using lt_trans hlt2 hlt
        · intro e he
          rcases List.mem_cons.mp he with rfl | he
          · simpa using le_of_lt hlt2
          · simpa using hall e he
        · intro j hj
          cases j with
          | zero => simpa using hlt2
          | succ j => simpa using hfirst j (by omega)
    · have hrec : argminAux (d :: rest) i best bestd = argminAux rest (i + 1) best bestd := by
        simp [argminAux, hlt]
      rcases ih (i + 1) best bestd with ⟨hr, hall⟩ | ⟨k, hk, hr, hlt2, hall, hfirst⟩
      · refine Or.inl ⟨by rw [hrec, hr], ?_⟩
        intro e he
        rcases List.mem_cons.mp he with rfl | he
        · exact le_of_not_lt hlt
        · exact hall e he
      · have hdle : rest.getD k 0 < d := lt_of_lt_of_le hlt2 (le_of_not_lt hlt)
        refine Or.inr ⟨k + 1, by simpa using Nat.succ_lt_succ hk, ?_, ?_, ?_, ?_⟩
        · rw [hrec, hr]; omega
        · simpa using hlt2
        · intro e he
          rcases List.mem_cons.mp he with rfl | he
          · simpa using le_of_lt hdle
          · simpa using hall e he
        · intro j hj
          cases j with
          | zero => simpa using hdle
          | succ j => simpa using hfirst j (by omega)

theorem argmin_spec (l : List ℚ) (h : l ≠ []) :
    argmin l < l.length ∧ (∀ d ∈ l, l.getD (argmin l) 0 ≤ d) ∧
      (∀ j < argmin l, l.getD (argmin l) 0 < l.getD j 0) := by
  cases l with
  | nil => exact absurd rfl h
  | cons d rest =>
    have hdef : argmin (d :: rest) = argminAux rest 1 0 d := rfl
    rcases argminAux_spec rest 1 0 d with ⟨hr, hall⟩ | ⟨k, hk, hr, hlt2, hall, hfirst⟩
    · have h0 : argmin (d :: rest) = 0 := by rw [hdef, hr]
      refine ⟨by simp [h0], ?_, ?_⟩
      · intro e he
        rcases List.mem_cons.mp he with rfl | he
        · simp [h0]
        · simpa [h0] using hall e he
      · intro j hj; omega
    · have h1 : argmin (d :: rest) = k + 1 := by rw [hdef, hr]; omega
      have hgetD : (d :: rest).getD (argmin (d :: rest)) 0 = rest.getD k 0 := by
        simp [h1]
      refine ⟨by simp [h1]; omega, ?_, ?_⟩
      · intro e he
        rcases List.mem_cons.mp he with rfl | he
        · rw [hgetD]; exact le_of_lt hlt2
        · rw [hgetD]; exact hall e he
      · intro j hj
        rw [h1] at hj
        cases j with
        | zero => rw [hgetD]; simpa using hlt2
        | succ j => rw [hgetD]; simpa using hfirst j (by omega)

/-- C4: for a non-empty palette, `nearest` is deterministic (equal palette
and colour inputs give equal results), returns a name present in the
palette, and returns the name at the first index achieving the minimum
squared perceptual distance: its distance is a lower bound of all palette
distances, and every strictly earlier palette entry has strictly larger
distance. -/
theorem nearest_spec (rgb2lab : Rgb → Lab) (items : List (Name × Rgb)) (c : Rgb)
    (h : items ≠ []) :
    (∀ (rgb2lab2 : Rgb → Lab) (items2 : List (Name × Rgb)) (c2 : Rgb),
      rgb2lab2 = rgb2lab → items2 = items → c2 = c →
      nearest rgb2lab2 (loadPalette rgb2lab2 items2) c2
        = nearest rgb2lab (loadPalette rgb2lab items) c) ∧
    nearest rgb2lab (loadPalette rgb2lab items) c ∈ (loadPalette rgb2lab items).names ∧
    (∃ i < (dists rgb2lab (loadPalette rgb2lab items) c).length,
      nearest rgb2lab (loadPalette rgb2lab items) c
        = (loadPalette rgb2lab items).names.getD i [] ∧
      (∀ d ∈ dists rgb2lab (loadPalette rgb2lab items) c,
        (dists rgb2lab (loadPalette rgb2lab items) c).getD i 0 ≤ d) ∧
      (∀ j < i, (dists rgb2lab (loadPalette rgb2lab items) c).getD i 0
        < (dists rgb2lab (loadPalette rgb2lab items) c).getD j 0)) := by
  set pal := loadPalette rgb2lab items with hpal
  have hnames : pal.names.length = items.length := by simp [hpal, loadPalette]
  have hlab : pal.lab.length = items.length := by simp [hpal, loadPalette]
  have hd : (dists rgb2lab pal c).length = items.length := by simp [dists, hlab]
  have hne : dists rgb2lab pal c ≠ [] := by
    intro hnil
    apply h
    have := congrArg List.length hnil
    rw [hd] at this
    exact List.length_eq_zero.mp this
  obtain ⟨hlt, hmin, hfirst⟩ := argmin_spec (dists rgb2lab pal c) hne
  refine ⟨?_, ?_, argmin (dists rgb2lab pal c), hlt, rfl, hmin, hfirst⟩
  · rintro _ _ _ rfl rfl rfl; rfl
  · have hlt2 : argmin (dists rgb2lab pal c) < pal.names.length := by omega
    have : pal.names.getD (argmin (dists rgb2lab pal c)) [] ∈ pal.names := by
      rw [List.getD_eq_getElem pal.names [] hlt2]
      exact List.getElem_mem hlt2
    exact this

/-- Witness for C4: the two-entry wool palette of the spec scenario, with
the identity conversion standing in for rgb2lab. -/
theorem nearest_spec_witness :
    (∀ (rgb2lab2 : Rgb → Lab) (items2 : List (Name × Rgb)) (c2 : Rgb),
      rgb2lab2 = id → items2 = [(("white_wool".data), (255, 255, 255)), (("black_wool".data), (0, 0, 0))] → c2 = (250, 250, 250) →
      nearest rgb2lab2 (loadPalette rgb2lab2 items2) c2
        = nearest id (loadPalette id [(("white_wool".data), (255, 255, 255)), (("black_wool".data), (0, 0, 0))]) (250, 250, 250)) ∧
    nearest id (loadPalette id [(("white_wool".data), (255, 255, 255)), (("black_wool".data), (0, 0, 0))]) (250, 250, 250)
      ∈ (loadPalette id [(("white_wool".data), (255, 255, 255)), (("black_wool".data), (0, 0, 0))]).names ∧
    (∃ i < (dists id (loadPalette id [(("white_wool".data), (255, 255, 255)), (("black_wool".data), (0, 0, 0))]) (250, 250, 250)).length,
      nearest id (loadPalette id [(("white_wool".data), (255, 255, 255)), (("black_wool".data), (0, 0, 0))]) (250, 250, 250)
        = (loadPalette id [(("white_wool".data), (255, 255, 255)), (("black_wool".data), (0, 0, 0))]).names.getD i [] ∧
      (∀ d ∈ dists id (loadPalette id [(("white_wool".data), (255, 255, 255)), (("black_wool".data), (0, 0, 0))]) (250, 250, 250),
        (dists id (loadPalette id [(("white_wool".data), (255, 255, 255)), (("black_wool".data), (0, 0, 0))]) (250, 250, 250)).getD i 0 ≤ d) ∧
      (∀ j < i, (dists id (loadPalette id [(("white_wool".data), (255, 255, 255)), (("black_wool".data), (0, 0, 0))]) (250, 250, 250)).getD i 0
        < (dists id (loadPalette id [(("white_wool".data), (255, 255, 255)), (("black_wool".data), (0, 0, 0))]) (250, 250, 250)).getD j 0)) :=
  nearest_spec id [(("white_wool".data), (255, 255, 255)), (("black_wool".data), (0, 0, 0))]
    (250, 250, 250) (by decide)

/-- Counterexample for C6: `BlockPalette.__init__` performs no validation —
it constructs a matcher both for a palette with a duplicated name and for a
palette with a channel value outside [0, 255], keeping every entry. -/
theorem loadPalette_no_validation :
    (loadPalette id [(("white".data), (255, 255, 255)), (("white".data), (255, 255, 255))]).names
      = [("white".data), ("white".data)] ∧
    (loadPalette id [(("x".data), (300, 0, 0))]).names = [("x".data)] := by
  exact ⟨rfl, rfl⟩

/-- C6 (amended): loading never fails — for every item list the constructed
matcher keeps all names in order (duplicates included) and converts every
entry (out-of-range channels included); no `InvalidPaletteError` exists in
the code. -/
theorem loadPalette_total (rgb2lab : Rgb → Lab) (items : List (Name × Rgb)) :
    (loadPalette rgb2lab items).names = items.map Prod.fst ∧
    (loadPalette rgb2lab items).lab = items.map fun it => rgb2lab (div255 it.2) := by
  exact ⟨rfl, rfl⟩

/-! ## build_block_grid (claim C8) -/

theorem zip_snd_unique {α β : Type} [DecidableEq α] :
    ∀ (l1 : List α) (l2 : List β), l1.Nodup →
      ∀ {a : α} {b b' : β}, (a, b) ∈ l1.zip l2 → (a, b') ∈ l1.zip l2 → b = b'
  | [], _, _, _, _, _, h1, _ => by simp at h1
  | _ :: _, [], _, _, _, _, h1, _ => by simp at h1
  | x :: xs, y :: ys, hnd, a, b, b', h1, h2 => by
    have hx : x ∉ xs := (List.nodup_cons.mp hnd).1
    have hzt : (x :: xs).zip (y :: ys) = (x, y) :: xs.zip ys := rfl
    rw [hzt] at h1 h2
    rcases List.mem_cons.mp h1 with he1 | ht1
    · rcases List.mem_cons.mp h2 with he2 | ht2
      · simp only [Prod.mk.injEq] at he1 he2
        exact he1.2.trans he2.2.symm
      · exfalso
        simp only [Prod.mk.injEq] at he1
        exact hx (he1.1 ▸ (List.of_mem_zip ht2).1)
    · rcases List.mem_cons.mp h2 with he2 | ht2
      · exfalso
        simp only [Prod.mk.injEq] at he2
        exact hx (he2.1 ▸ (List.of_mem_zip ht1).1)
      · exact zip_snd_unique xs ys (List.nodup_cons.mp hnd).2 ht1 ht2

/-- C8 (amended): `build_block_grid` does not check the list lengths —
Python's `zip` silently truncates to the shorter list, so no
`InputMismatchError` is raised.  When the lengths match (and the
coordinates are distinct), every zipped (coordinate, colour) pair is stored
as the matcher's nearest identifier at that coordinate, and every other
cell remains air (`none`). -/
theorem buildBlockGrid_spec (rgb2lab : Rgb → Lab) (pal : BlockPalette)
    (coords : List GCoord) (colors : List Rgb)
    (hnd : coords.Nodup) (hlen : coords.length = colors.length) :
    (∀ (p : GCoord) (col : Rgb), (p, col) ∈ coords.zip colors →
      buildBlockGrid rgb2lab pal coords colors p = some (nearest rgb2lab pal col)) ∧
    (∀ p : GCoord, p ∉ coords →
      buildBlockGrid rgb2lab pal coords colors p = none) := by
  constructor
  · intro p col hmem
    apply writeFold_apply_eq (coords.zip colors) Prod.fst _ p (some (nearest rgb2lab pal col))
    · rintro ⟨a, b⟩ hq
      by_cases hap : a = p
      · subst hap
        right
        rw [zip_snd_unique coords colors hnd hq hmem]
      · exact Or.inl hap
    · exact ⟨(p, col), hmem, rfl⟩
  · intro p hp
    apply writeFold_apply_of_ne (coords.zip colors) Prod.fst _ p
    rintro ⟨a, b⟩ hq rfl
    exact hp (List.of_mem_zip hq).1

/-- Witness for C8's amended theorem at a concrete matched input. -/
theorem buildBlockGrid_spec_witness :
    (∀ (p : GCoord) (col : Rgb),
      (p, col) ∈ ([((0, 0, 0) : GCoord)]).zip [((1, 2, 3) : Rgb)] →
      buildBlockGrid id (loadPalette id [(("w".data), (255, 255, 255))]) [(0, 0, 0)] [(1, 2, 3)] p
        = some (nearest id (loadPalette id [(("w".data), (255, 255, 255))]) col)) ∧
    (∀ p : GCoord, p ∉ [((0, 0, 0) : GCoord)] →
      buildBlockGrid id (loadPalette id [(("w".data), (255, 255, 255))]) [(0, 0, 0)] [(1, 2, 3)] p = none) :=
  buildBlockGrid_spec id (loadPalette id [(("w".data), (255, 255, 255))])
    [(0, 0, 0)] [(1, 2, 3)] (by decide) (by decide)

/-- Counterexample for C8: on mismatched lengths (two coordinates, one
colour) the builder raises nothing — it silently stores only the first
pair and leaves the unmatched coordinate as air. -/
theorem buildBlockGrid_mismatch :
    buildBlockGrid id (loadPalette id [(("w".data), (255, 255, 255))])
      [(0, 0, 0), (1, 1, 1)] [(1, 2, 3)] (1, 1, 1) = none ∧
    buildBlockGrid id (loadPalette id [(("w".data), (255, 255, 255))])
      [(0, 0, 0), (1, 1, 1)] [(1, 2, 3)] (0, 0, 0) = some ("w".data) := by
  exact ⟨rfl, rfl⟩

/-! ## Zero-volume grids (claim C9) -/

/-- Counterexample for C9: the legacy writer does not fail on a
zero-dimension grid — with W = 0 it silently produces empty Blocks and Data
arrays. -/
theorem legacy_zero_dim_no_error :
    legacyBlocksList (fun _ => none) 0 3 3 = [] ∧
    legacyDataList (fun _ => none) 0 3 3 = [] := by
  exact ⟨rfl, rfl⟩

/-- C9 (amended): no serializer checks for zero dimensions; whenever W, H
or D is zero the legacy writer emits empty byte arrays (volume zero)
instead of raising an `EmptyGridError`. -/
theorem legacy_zero_dim (G : GCoord → Option Name) (W H D : ℕ)
    (h : W = 0 ∨ H = 0 ∨ D = 0) :
    legacyBlocksList G W H D = [] ∧ legacyDataList G W H D = [] := by
  have hvol : W * H * D = 0 := by rcases h with h | h | h <;> simp [h]
  constructor <;> simp [legacyBlocksList, legacyDataList, hvol]

/-- Witness for C9's amended theorem at W = 0. -/
theorem legacy_zero_dim_witness :
    legacyBlocksList (fun _ => none) 0 1 1 = [] ∧
    legacyDataList (fun _ => none) 0 1 1 = [] :=
  legacy_zero_dim (fun _ => none) 0 1 1 (Or.inl rfl)

/-! ## The Sponge v2 format (claim C5) -/

theorem flatMap_length_const {α β : Type} (l : List α) (f : α → List β) (k : ℕ)
    (h : ∀ a ∈ l, (f a).length = k) : (l.flatMap f).length = l.length * k := by
  induction l with
  | nil => simp
  | cons a tl ih =>
    have ha := h a (List.mem_cons_self a tl)
    have htl := ih fun b hb => h b (List.mem_cons_of_mem a hb)
    simp only [List.flatMap_cons, List.length_append, ha, htl, List.length_cons]
    ring

theorem spongeOrder_length (W H D : ℕ) : (spongeOrder W H D).length = W * H * D := by
  unfold spongeOrder
  rw [flatMap_length_const _ _ (D * W) ?_]
  · simp [List.length_range]; ring
  · intro y _
    rw [flatMap_length_const _ _ W ?_]
    · simp [List.length_range]
    · intro z _
      simp

theorem palette_foldl_mono (G : GCoord → Option Name) :
    ∀ (l : List GCoord) (acc : List Name) (n : Name), n ∈ acc →
      n ∈ l.foldl (fun pal p => if cellName (G p) ∈ pal then pal else pal ++ [cellName (G p)]) acc
  | [], _, _, hn => hn
  | a :: tl, acc, n, hn => by
    have hacc : n ∈ (if cellName (G a) ∈ acc then acc else acc ++ [cellName (G a)]) := by
      split
      · exact hn
      · exact List.mem_append_left _ hn
    exact palette_foldl_mono G tl _ n hacc

theorem palette_foldl_mem (G : GCoord → Option Name) :
    ∀ (l : List GCoord) (acc : List Name) (p : GCoord), p ∈ l →
      cellName (G p) ∈ l.foldl (fun pal q => if cellName (G q) ∈ pal then pal else pal ++ [cellName (G q)]) acc
  | [], _, _, hp => by simp at hp
  | a :: tl, acc, p, hp => by
    rcases List.mem_cons.mp hp with rfl | hp
    · apply palette_foldl_mono G tl
      show cellName (G p) ∈ if cellName (G p) ∈ acc then acc else acc ++ [cellName (G p)]
      split
      · assumption
      · exact List.mem_append_right _ (List.mem_singleton.mpr rfl)
    · exact palette_foldl_mem G tl _ p hp

theorem mem_spongePalette (G : GCoord → Option Name) (W H D : ℕ) (p : GCoord)
    (hp : p ∈ spongeOrder W H D) : cellName (G p) ∈ spongePalette G W H D :=
  palette_foldl_mem G (spongeOrder W H D) _ p hp

theorem indexOf_lt_length_of_mem {α : Type} [BEq α] [LawfulBEq α] {a : α} :
    ∀ {l : List α}, a ∈ l → l.indexOf a < l.length := by
  intro l
  induction l with
  | nil => intro h; simp at h
  | cons b tl ih =>
    intro h
    rw [List.indexOf_cons]
    by_cases hba : b == a
    · simp [hba]
    · have hmem : a ∈ tl := by
        rcases List.mem_cons.mp h with rfl | hm
        · exact absurd (beq_self_eq_true a) (by simpa using hba)
        · exact hm
      simp only [hba, Bool.false_eq_true, if_false, cond_false, List.length_cons]
      exact Nat.succ_lt_succ (ih hmem)

theorem decodeInt16s_flatMap {α : Type} (u v : α → ℕ) :
    ∀ l : List α, decodeInt16s (l.flatMap fun p => [u p, v p]) =
      l.map fun p =>
        (if (u p % 256) + 256 * (v p % 256) < 32768 then
          (((u p % 256) + 256 * (v p % 256) : ℕ) : ℤ)
        else
          (((u p % 256) + 256 * (v p % 256) : ℕ) : ℤ) - 65536)
  | [] => rfl
  | a :: tl => by
    have hstep : ((a :: tl).flatMap fun p => [u p, v p])
        = u a :: v a :: tl.flatMap fun p => [u p, v p] := by simp
    rw [hstep]
    simp only [decodeInt16s, decodeInt16s_flatMap u v tl, List.map_cons]

/-- C5: the Sponge v2 writer (modelled from the spec, with the two-byte
element width that verify_schem.py assumes) emits a BlockData sequence of
exactly `2 × W×H×D` bytes — the byte length verify_schem.py's check
expects — and every index decoded the way verify_schem.py decodes them
(consecutive little-endian int16) lies in `[0, |Palette|)`. -/
theorem sponge_blockdata_spec (G : GCoord → Option Name) (W H D : ℕ)
    (hpal : (spongePalette G W H D).length ≤ 32768) :
    (spongeBlockData G W H D).length = expectedBytes W H D ∧
    ∀ i ∈ decodeInt16s (spongeBlockData G W H D),
      0 ≤ i ∧ i < ((spongePalette G W H D).length : ℤ) := by
  constructor
  · unfold spongeBlockData expectedBytes
    have hlen := flatMap_length_const (spongeOrder W H D)
      (fun p => [(spongePalette G W H D).indexOf (cellName (G p)) % 256,
                 ((spongePalette G W H D).indexOf (cellName (G p)) / 256) % 256])
      2 (fun p _ => rfl)
    rw [hlen, spongeOrder_length]
    ring
  · intro i hi
    unfold spongeBlockData at hi
    rw [decodeInt16s_flatMap] at hi
    obtain ⟨p, hp, hdef⟩ := List.mem_map.mp hi
    have hmem := mem_spongePalette G W H D p hp
    have hn : (spongePalette G W H D).indexOf (cellName (G p)) < (spongePalette G W H D).length :=
      indexOf_lt_length_of_mem hmem
    set n := (spongePalette G W H D).indexOf (cellName (G p)) with hndef
    have hn2 : n < 32768 := lt_of_lt_of_le hn hpal
    have hval : (n % 256) % 256 + 256 * ((n / 256 % 256) % 256) = n := by omega
    rw [hval] at hdef
    rw [if_pos hn2] at hdef
    subst hdef
    exact ⟨Int.natCast_nonneg n, by exact_mod_cast hn⟩

/-- Witness for C5: a 1×1×1 grid holding stone; its palette is
[air, stone]. -/
theorem sponge_blockdata_spec_witness :
    (spongeBlockData (fun _ => some ("minecraft:stone".data)) 1 1 1).length = expectedBytes 1 1 1 ∧
    ∀ i ∈ decodeInt16s (spongeBlockData (fun _ => some ("minecraft:stone".data)) 1 1 1),
      0 ≤ i ∧ i < ((spongePalette (fun _ => some ("minecraft:stone".data)) 1 1 1).length : ℤ) :=
  sponge_blockdata_spec (fun _ => some ("minecraft:stone".data)) 1 1 1 (by decide)

/-! ## Flood-fill pruning (claims C1, C7) -/

theorem adjacent_symm {p q : Coord} (h : adjacent p q) : adjacent q p := by
  obtain ⟨p1, p2, p3⟩ := p
  obtain ⟨q1, q2, q3⟩ := q
  simp only [adjacent, dirs, addC, List.map_cons, List.map_nil, List.mem_cons,
    List.not_mem_nil, or_false, Prod.mk.injEq, add_zero] at h ⊢
  rcases h with h | h | h | h | h | h <;> obtain ⟨rfl, rfl, rfl⟩ := h
  · exact Or.inr (Or.inl ⟨by ring, rfl, rfl⟩)
  · exact Or.inl ⟨by ring, rfl, rfl⟩
  · exact Or.inr (Or.inr (Or.inr (Or.inl ⟨rfl, by ring, rfl⟩)))
  · exact Or.inr (Or.inr (Or.inl ⟨rfl, by ring, rfl⟩))
  · exact Or.inr (Or.inr (Or.inr (Or.inr (Or.inr ⟨rfl, rfl, by ring⟩))))
  · exact Or.inr (Or.inr (Or.inr (Or.inr (Or.inl ⟨rfl, rfl, by ring⟩))))

theorem subset_step (V S : Finset Coord) : S ⊆ step V S :=
  Finset.subset_union_left

theorem step_subset {V S : Finset Coord} (hS : S ⊆ V) : step V S ⊆ V :=
  Finset.union_subset hS (Finset.filter_subset _ _)

theorem iterate_subset {V : Finset Coord} {a : Coord} (ha : a ∈ V) :
    ∀ n, (step V)^[n] {a} ⊆ V := by
  intro n
  induction n with
  | zero => simpa using Finset.singleton_subset_iff.mpr ha
  | succ n ih => rw [Function.iterate_succ_apply']; exact step_subset ih

theorem mem_self_iterate (V : Finset Coord) (a : Coord) :
    ∀ n, a ∈ (step V)^[n] {a} := by
  intro n
  induction n with
  | zero => simp
  | succ n ih => rw [Function.iterate_succ_apply']; exact subset_step V _ ih

theorem reaches_of_mem_iterate {V : Finset Coord} {a : Coord} (ha : a ∈ V) :
    ∀ n, ∀ b ∈ (step V)^[n] {a}, reaches V a b := by
  intro n
  induction n with
  | zero =>
    intro b hb
    rw [Function.iterate_zero_apply, Finset.mem_singleton] at hb
    exact hb ▸ Relation.ReflTransGen.refl
  | succ n ih =>
    intro b hb
    rw [Function.iterate_succ_apply'] at hb
    rcases Finset.mem_union.mp hb with hb | hb
    · exact ih b hb
    · obtain ⟨hbV, s, hs, hadj⟩ := Finset.mem_filter.mp hb
      exact Relation.ReflTransGen.tail (ih s hs) ⟨iterate_subset ha n hs, hbV, hadj⟩

theorem iterate_fix_of_fix {V S : Finset Coord} (h : step V S = S) :
    ∀ m, (step V)^[m] S = S := by
  intro m
  induction m with
  | zero => rfl
  | succ m ih => rw [Function.iterate_succ_apply', ih, h]

theorem step_iterate_card_fix {V : Finset Coord} {a : Coord} (ha : a ∈ V) :
    step V ((step V)^[V.card] {a}) = (step V)^[V.card] {a} := by
  have key : ∀ k, step V ((step V)^[k] {a}) = (step V)^[k] {a} ∨
      k + 1 ≤ ((step V)^[k] {a}).card := by
    intro k
    induction k with
    | zero => right; simp
    | succ k ih =>
      rcases ih with hfix | hcard
      · left
        rw [Function.iterate_succ_apply', hfix, hfix]
      · by_cases hfix : step V ((step V)^[k] {a}) = (step V)^[k] {a}
        · left
          rw [Function.iterate_succ_apply', hfix, hfix]
        · right
          rw [Function.iterate_succ_apply']
          have hsub : (step V)^[k] {a} ⊆ step V ((step V)^[k] {a}) := subset_step V _
          have hne : ¬ (step V ((step V)^[k] {a})).card ≤ ((step V)^[k] {a}).card := by
            intro hle
            exact hfix (Finset.eq_of_subset_of_card_le hsub hle).symm
          omega
  rcases key V.card with hfix | hcard
  · exact hfix
  · have hle : ((step V)^[V.card] {a}).card ≤ V.card :=
      Finset.card_le_card (iterate_subset ha V.card)
    omega

theorem mem_floodFill_of_reaches {V : Finset Coord} {a b : Coord} (ha : a ∈ V)
    (h : reaches V a b) : b ∈ floodFill V a := by
  induction h with
  | refl => exact mem_self_iterate V a V.card
  | tail hab hrel ih =>
    have hfix := step_iterate_card_fix ha
    rw [floodFill, ← hfix]
    apply Finset.mem_union_right
    exact Finset.mem_filter.mpr ⟨hrel.2.1, _, ih, hrel.2.2⟩

theorem mem_floodFill_iff {V : Finset Coord} {a : Coord} (ha : a ∈ V) {b : Coord} :
    b ∈ floodFill V a ↔ reaches V a b :=
  ⟨reaches_of_mem_iterate ha V.card b, mem_floodFill_of_reaches ha⟩

theorem reaches_mem {V : Finset Coord} {a b : Coord} (ha : a ∈ V)
    (h : reaches V a b) : b ∈ V := by
  induction h with
  | refl => exact ha
  | tail _ hrel _ => exact hrel.2.1

theorem reaches_symm {V : Finset Coord} {a b : Coord} (h : reaches V a b) :
    reaches V b a := by
  induction h with
  | refl => exact Relation.ReflTransGen.refl
  | tail _ hrel ih =>
    exact Relation.ReflTransGen.head ⟨hrel.2.1, hrel.1, adjacent_symm hrel.2.2⟩ ih

theorem floodFill_subset {V : Finset Coord} {a : Coord} (ha : a ∈ V) :
    floodFill V a ⊆ V :=
  iterate_subset ha V.card

theorem mem_floodFill_self {V : Finset Coord} {a : Coord} :
    a ∈ floodFill V a :=
  mem_self_iterate V a V.card

theorem floodFill_eq_of_mem {V : Finset Coord} {v w : Coord} (hv : v ∈ V)
    (hw : w ∈ floodFill V v) : floodFill V w = floodFill V v := by
  have hr : reaches V v w := (mem_floodFill_iff hv).mp hw
  have hwV : w ∈ V := reaches_mem hv hr
  ext b
  rw [mem_floodFill_iff hwV, mem_floodFill_iff hv]
  exact ⟨fun h => hr.trans h, fun h => (reaches_symm hr).trans h⟩

theorem pruneList_mem_iff (V : Finset Coord) (t : ℕ) :
    ∀ (l : List Coord) (visited : Finset Coord),
      (∀ w ∈ visited, w ∈ V) →
      (∀ w ∈ visited, floodFill V w ⊆ visited) →
      (∀ w ∈ V, w ∉ visited → w ∈ l) →
      (∀ w ∈ l, w ∈ V) →
      ∀ x, (x ∈ pruneList V t l visited ↔
        x ∈ V ∧ x ∉ visited ∧ t ≤ (floodFill V x).card) := by
  intro l
  induction l with
  | nil =>
    intro visited _ _ inv3 _ x
    simp only [pruneList, Finset.not_mem_empty, false_iff]
    rintro ⟨hxV, hxvis, _⟩
    exact List.not_mem_nil x (inv3 x hxV hxvis)
  | cons v rest ih =>
    intro visited inv1 inv2 inv3 hl x
    have hvV : v ∈ V := hl v (List.mem_cons_self v rest)
    by_cases hvis : v ∈ visited
    · have hstep : pruneList V t (v :: rest) visited = pruneList V t rest visited := by
        simp [pruneList, hvis]
      rw [hstep]
      refine ih visited inv1 inv2 ?_ (fun w hw => hl w (List.mem_cons_of_mem v hw)) x
      intro w hwV hwvis
      rcases List.mem_cons.mp (inv3 w hwV hwvis) with rfl | hw
      · exact absurd hvis hwvis
      · exact hw
    · have hCsub : floodFill V v ⊆ V := floodFill_subset hvV
      have hvC : v ∈ floodFill V v := mem_floodFill_self
      have hCeq : ∀ w ∈ floodFill V v, floodFill V w = floodFill V v :=
        fun w hw => floodFill_eq_of_mem hvV hw
      have inv1' : ∀ w ∈ visited ∪ floodFill V v, w ∈ V := by
        intro w hw
        rcases Finset.mem_union.mp hw with hw | hw
        · exact inv1 w hw
        · exact hCsub hw
      have inv2' : ∀ w ∈ visited ∪ floodFill V v, floodFill V w ⊆ visited ∪ floodFill V v := by
        intro w hw
        rcases Finset.mem_union.mp hw with hw | hw
        · exact (inv2 w hw).trans Finset.subset_union_left
        · rw [hCeq w hw]
          exact Finset.subset_union_right
      have inv3' : ∀ w ∈ V, w ∉ visited ∪ floodFill V v → w ∈ rest := by
        intro w hwV hwvis
        rw [Finset.mem_union] at hwvis
        push_neg at hwvis
        rcases List.mem_cons.mp (inv3 w hwV hwvis.1) with rfl | hw
        · exact absurd hvC hwvis.2
        · exact hw
      have hl' : ∀ w ∈ rest, w ∈ V := fun w hw => hl w (List.mem_cons_of_mem v hw)
      have hnotvis : ∀ y ∈ floodFill V v, y ∉ visited := by
        intro y hy hyvis
        exact hvis (inv2 y hyvis ((hCeq y hy).symm ▸ mem_floodFill_self))
      by_cases hcard : t ≤ (floodFill V v).card
      · have hstep : pruneList V t (v :: rest) visited
            = floodFill V v ∪ pruneList V t rest (visited ∪ floodFill V v) := by
          simp [pruneList, hvis, hcard]
        rw [hstep]
        constructor
        · intro hx
          rcases Finset.mem_union.mp hx with hx | hx
          · refine ⟨hCsub hx, hnotvis x hx, ?_⟩
            rw [hCeq x hx]
            exact hcard
          · obtain ⟨hxV, hxvis, hxcard⟩ := (ih _ inv1' inv2' inv3' hl' x).mp hx
            rw [Finset.mem_union] at hxvis
            push_neg at hxvis
            exact ⟨hxV, hxvis.1, hxcard⟩
        · rintro ⟨hxV, hxvis, hxcard⟩
          by_cases hxC : x ∈ floodFill V v
          · exact Finset.mem_union_left _ hxC
          · refine Finset.mem_union_right _ ((ih _ inv1' inv2' inv3' hl' x).mpr ?_)
            refine ⟨hxV, ?_, hxcard⟩
            rw [Finset.mem_union]
            push_neg
            exact ⟨hxvis, hxC⟩
      · have hstep : pruneList V t (v :: rest) visited
            = pruneList V t rest (visited ∪ floodFill V v) := by
          simp [pruneList, hvis, hcard]
        rw [hstep]
        constructor
        · intro hx
          obtain ⟨hxV, hxvis, hxcard⟩ := (ih _ inv1' inv2' inv3' hl' x).mp hx
          rw [Finset.mem_union] at hxvis
          push_neg at hxvis
          exact ⟨hxV, hxvis.1, hxcard⟩
        · rintro ⟨hxV, hxvis, hxcard⟩
          refine (ih _ inv1' inv2' inv3' hl' x).mpr ⟨hxV, ?_, hxcard⟩
          rw [Finset.mem_union]
          push_neg
          refine ⟨hxvis, fun hxC => hcard ?_⟩
          rw [← hCeq x hxC]
          exact hxcard

/-- C1: for every voxel list and every positive threshold, a coordinate
survives pruning exactly when it occurs in the input and the 6-adjacency
connected component containing it (within the input's occupancy set) has at
least `t` members; so everything retained lies in a component of size at
least `t`, every voxel of such a component is retained, and nothing else
is. -/
theorem prune_components (l : List Coord) (t : ℕ) (ht : 0 < t) (v : Coord) :
    v ∈ prune l t ↔
      v ∈ l ∧ t ≤ ({b : Coord | b ∈ l.toFinset ∧ reaches l.toFinset v b} : Set Coord).ncard := by
  have hbase := pruneList_mem_iff l.toFinset t l ∅ (by simp) (by simp)
    (fun w hw _ => List.mem_toFinset.mp hw) (fun w hw => List.mem_toFinset.mpr hw) v
  by_cases hvl : v ∈ l
  · have hvV : v ∈ l.toFinset := List.mem_toFinset.mpr hvl
    have hset : ({b : Coord | b ∈ l.toFinset ∧ reaches l.toFinset v b} : Set Coord)
        = ↑(floodFill l.toFinset v) := by
      ext b
      simp only [Set.mem_setOf_eq, Finset.coe_sort_coe, Finset.mem_coe]
      constructor
      · rintro ⟨_, hr⟩
        exact (mem_floodFill_iff hvV).mpr hr
      · intro hb
        exact ⟨floodFill_subset hvV hb, (mem_floodFill_iff hvV).mp hb⟩
    rw [prune, hbase, hset, Set.ncard_coe_Finset]
    simp [hvl, hvV]
  · have hLHS : v ∉ prune l t := by
      intro h
      exact hvl (List.mem_toFinset.mp ((hbase.mp h).1))
    simp [hLHS, hvl]

/-- Witness for C1: the single voxel (0,0,0) with threshold 1 is retained,
and its component indeed has at least one member. -/
theorem prune_components_witness :
    ((0, 0, 0) : Coord) ∈ [((0, 0, 0) : Coord)] ∧
    1 ≤ ({b : Coord | b ∈ ([((0, 0, 0) : Coord)]).toFinset ∧
      reaches (([((0, 0, 0) : Coord)]).toFinset) (0, 0, 0) b} : Set Coord).ncard :=
  (prune_components [((0, 0, 0) : Coord)] 1 (by decide) ((0, 0, 0) : Coord)).mp (by decide)

/-- C7: the pruning stage fails (raising the implementation's empty-result
error) exactly when the surviving set is empty; in particular the
non-adjacent voxels (0,0,0) and (5,5,5) with threshold 2 are both pruned
and the error is raised. -/
theorem pruneChecked_spec :
    (∀ (l : List Coord) (t : ℕ),
      (∃ e, pruneChecked l t = .error e) ↔ prune l t = ∅) ∧
    prune [((0, 0, 0) : Coord), ((5, 5, 5) : Coord)] 2 = ∅ ∧
    pruneChecked [((0, 0, 0) : Coord), ((5, 5, 5) : Coord)] 2
      = .error "Nothing left after pruning; try lowering --min_component." := by
  refine ⟨?_, by decide, ?_⟩
  · intro l t
    by_cases h : prune l t = ∅ <;> simp [pruneChecked, h]
  · unfold pruneChecked
    rw [if_pos (by decide : prune [((0, 0, 0) : Coord), ((5, 5, 5) : Coord)] 2 = ∅)]

end MinecraftModel
